import Mathlib

/-!
Verification of the im2col / col2im transform pair (src/include/im2col.h).

The two C++ routines are shallowly embedded: a flat buffer is a total
function `Int → α` (the C code indexes raw pointers, and all loop bounds
are C `int`s), each `for` loop becomes a `List.foldl` over the integer
range it enumerates, a buffer store becomes `Function.update`, and C
truncating division and remainder become `Int.tdiv` / `Int.tmod`.
-/

namespace Im2col

/-- Linear offset of patch-matrix slot `(h, w, c)`:
`channels_col*width_col*h + channels_col*w + c`, exactly the write index
used by both routines in the source. -/
def colIndex (channels_col width_col h w c : Int) : Int :=
  channels_col * width_col * h + channels_col * w + c

/-- Linear offset of image element `(c_im, h_pad, w_pad)`:
`(c_im * height + h_pad) * width + w_pad`, exactly the image index used
by both routines in the source. -/
def imIndex (height width c_im h_pad w_pad : Int) : Int :=
  (c_im * height + h_pad) * width + w_pad

/-- `height_col = (height + 2 * pad_h - kernel_h) / stride_h + 1` with C
truncating division, as computed at the top of both routines. -/
def heightCol (height kernel_h pad_h stride_h : Int) : Int :=
  (height + 2 * pad_h - kernel_h).tdiv stride_h + 1

/-- `width_col = (width + 2 * pad_w - kernel_w) / stride_w + 1` with C
truncating division, as computed at the top of both routines. -/
def widthCol (width kernel_w pad_w stride_w : Int) : Int :=
  (width + 2 * pad_w - kernel_w).tdiv stride_w + 1

/-- `channels_col = channels * kernel_h * kernel_w`. -/
def channelsCol (channels kernel_h kernel_w : Int) : Int :=
  channels * kernel_h * kernel_w

/-- The values taken by a C loop `for (int i = 0; i < n; ++i)`: the
integers `0, 1, ..., n-1` in order, empty when `n ≤ 0`. -/
def rangeInt (n : Int) : List Int :=
  (List.range n.toNat).map (fun (m : Nat) => (m : Int))

/-- Embedding of `im2col_cpu` (src/include/im2col.h).  `data_im` is the
input image buffer, `data_col` the contents of the output buffer before
the call; the result is the contents of the output buffer after the
call. -/
def im2col_cpu {α : Type} [Zero α] (data_im : Int → α)
    (channels height width kernel_h kernel_w pad_h pad_w stride_h stride_w : Int)
    (data_col : Int → α) : Int → α :=
  let height_col := heightCol height kernel_h pad_h stride_h
  let width_col := widthCol width kernel_w pad_w stride_w
  let channels_col := channelsCol channels kernel_h kernel_w
  (rangeInt channels_col).foldl (fun buf c =>
    let w_offset := c.tmod kernel_w
    let h_offset := (c.tdiv kernel_w).tmod kernel_h
    let c_im := (c.tdiv kernel_h).tdiv kernel_w
    (rangeInt height_col).foldl (fun buf h =>
      (rangeInt width_col).foldl (fun buf w =>
        let h_pad := h * stride_h - pad_h + h_offset
        let w_pad := w * stride_w - pad_w + w_offset
        Function.update buf (colIndex channels_col width_col h w c)
          (if 0 ≤ h_pad ∧ h_pad < height ∧ 0 ≤ w_pad ∧ w_pad < width then
            data_im (imIndex height width c_im h_pad w_pad)
          else 0)) buf) buf) data_col

/-- Embedding of `col2im_cpu` (src/include/im2col.h).  `data_col` is the
input patch-matrix buffer, `data_im` the contents of the output image
buffer before the call; the result is the contents of the image buffer
after the call.  The routine first zeroes `height * width * channels`
elements, then accumulates. -/
def col2im_cpu {α : Type} [Zero α] [Add α] (data_col : Int → α)
    (channels height width patch_h patch_w pad_h pad_w stride_h stride_w : Int)
    (data_im : Int → α) : Int → α :=
  let zeroed := (rangeInt (height * width * channels)).foldl
    (fun buf i => Function.update buf i 0) data_im
  let height_col := heightCol height patch_h pad_h stride_h
  let width_col := widthCol width patch_w pad_w stride_w
  let channels_col := channelsCol channels patch_h patch_w
  (rangeInt channels_col).foldl (fun buf c =>
    let w_offset := c.tmod patch_w
    let h_offset := (c.tdiv patch_w).tmod patch_h
    let c_im := (c.tdiv patch_h).tdiv patch_w
    (rangeInt height_col).foldl (fun buf h =>
      (rangeInt width_col).foldl (fun buf w =>
        let h_pad := h * stride_h - pad_h + h_offset
        let w_pad := w * stride_w - pad_w + w_offset
        if 0 ≤ h_pad ∧ h_pad < height ∧ 0 ≤ w_pad ∧ w_pad < width then
          Function.update buf (imIndex height width c_im h_pad w_pad)
            (buf (imIndex height width c_im h_pad w_pad)
              + data_col (colIndex channels_col width_col h w c))
        else buf) buf) buf) zeroed

/-! ### Generic write-loop infrastructure -/

/-- Folding a list of stores `buf[k i] = v i` over an initial buffer. -/
def applyWrites {α ι : Type} (k : ι → Int) (v : ι → α) (l : List ι) (f : Int → α) :
    Int → α :=
  l.foldl (fun g i => Function.update g (k i) (v i)) f

/-- Folding a list of guarded accumulations `if p i then buf[k i] += v i`
over an initial buffer. -/
def applyAdds {α ι : Type} [Add α] (p : ι → Prop) [DecidablePred p]
    (k : ι → Int) (v : ι → α) (l : List ι) (f : Int → α) : Int → α :=
  l.foldl (fun g i => if p i then
    Function.update g (k i) (g (k i) + v i) else g) f

/-- The `(c, h, w)` iteration triples of the nested loops of both
routines, in execution order. -/
def triples (channels_col height_col width_col : Int) :
    List (Int × Int × Int) :=
  (rangeInt channels_col).flatMap fun c =>
    (rangeInt height_col).flatMap fun h =>
      (rangeInt width_col).map fun w => (c, h, w)

/-- From an iteration triple `(c, h, w)`, the decoded image coordinates
`(c_im, h_pad, w_pad)` exactly as both source loop bodies compute them:
`w_offset = c % kernel_w`, `h_offset = (c / kernel_w) % kernel_h`,
`c_im = c / kernel_h / kernel_w` (C truncating division), and
`h_pad = h*stride_h - pad_h + h_offset`,
`w_pad = w*stride_w - pad_w + w_offset`. -/
def decodeT (kernel_h kernel_w pad_h pad_w stride_h stride_w : Int)
    (t : Int × Int × Int) : Int × Int × Int :=
  ((t.1.tdiv kernel_h).tdiv kernel_w,
   t.2.1 * stride_h - pad_h + (t.1.tdiv kernel_w).tmod kernel_h,
   t.2.2 * stride_w - pad_w + t.1.tmod kernel_w)

/-- The patch-matrix slot written or read at iteration triple `(c, h, w)`. -/
def colKey (channels_col width_col : Int) (t : Int × Int × Int) : Int :=
  colIndex channels_col width_col t.2.1 t.2.2 t.1

/-- The in-image bounds test of the source, on decoded coordinates. -/
def inImage (height width : Int) (q : Int × Int × Int) : Prop :=
  0 ≤ q.2.1 ∧ q.2.1 < height ∧ 0 ≤ q.2.2 ∧ q.2.2 < width

instance (height width : Int) (q : Int × Int × Int) :
    Decidable (inImage height width q) := by
  unfold inImage; infer_instance

/-- The value Unfold stores at iteration triple `t`: the image value at
the decoded coordinates when in bounds, zero otherwise. -/
def unfoldVal {α : Type} [Zero α] (data_im : Int → α)
    (height width kernel_h kernel_w pad_h pad_w stride_h stride_w : Int)
    (t : Int × Int × Int) : α :=
  if inImage height width
      (decodeT kernel_h kernel_w pad_h pad_w stride_h stride_w t) then
    data_im (imIndex height width
      (decodeT kernel_h kernel_w pad_h pad_w stride_h stride_w t).1
      (decodeT kernel_h kernel_w pad_h pad_w stride_h stride_w t).2.1
      (decodeT kernel_h kernel_w pad_h pad_w stride_h stride_w t).2.2)
  else 0

/-- The image slot targeted by iteration triple `t` in Fold. -/
def imKey (height width kernel_h kernel_w pad_h pad_w stride_h stride_w : Int)
    (t : Int × Int × Int) : Int :=
  imIndex height width
    (decodeT kernel_h kernel_w pad_h pad_w stride_h stride_w t).1
    (decodeT kernel_h kernel_w pad_h pad_w stride_h stride_w t).2.1
    (decodeT kernel_h kernel_w pad_h pad_w stride_h stride_w t).2.2

theorem foldl_flatMap {β γ σ : Type} (l : List β) (g : β → List γ)
    (step : σ → γ → σ) (init : σ) :
    (l.flatMap g).foldl step init
      = l.foldl (fun s b => (g b).foldl step s) init := by
  induction l generalizing init with
  | nil => rfl
  | cons a l ih => simp [List.flatMap_cons, List.foldl_append, ih]

theorem applyWrites_miss {α ι : Type} (k : ι → Int) (v : ι → α) (l : List ι) :
    ∀ (f : Int → α) (j : Int), (∀ i ∈ l, k i ≠ j) →
      applyWrites k v l f j = f j := by
  induction l with
  | nil => intro f j _; rfl
  | cons a l ih =>
    intro f j hk
    show applyWrites k v l (Function.update f (k a) (v a)) j = f j
    rw [ih _ _ (fun i hi => hk i (List.mem_cons_of_mem a hi))]
    exact Function.update_noteq (Ne.symm (hk a (List.mem_cons_self a l))) _ _

theorem applyWrites_hit {α ι : Type} (k : ι → Int) (v : ι → α) (l : List ι) :
    ∀ (f : Int → α) (j : Int) (t : ι), l.Nodup → t ∈ l → k t = j →
      (∀ i ∈ l, k i = j → i = t) → applyWrites k v l f j = v t := by
  induction l with
  | nil => intro f j t _ ht _ _; exact absurd ht (List.not_mem_nil t)
  | cons a l ih =>
    intro f j t hnd ht hkt huniq
    show applyWrites k v l (Function.update f (k a) (v a)) j = v t
    by_cases ha : k a = j
    · have hat : a = t := huniq a (List.mem_cons_self a l) ha
      have htl : t ∉ l := hat ▸ (List.nodup_cons.mp hnd).1
      have hnone : ∀ i ∈ l, k i ≠ j := fun i hi hij =>
        htl ((huniq i (List.mem_cons_of_mem a hi) hij) ▸ hi)
      rw [applyWrites_miss k v l _ j hnone, hat, hkt]
      exact Function.update_same j (v t) f
    · have htl : t ∈ l := by
        rcases List.mem_cons.mp ht with h | h
        · subst h; exact absurd hkt ha
        · exact h
      exact ih _ _ t (List.nodup_cons.mp hnd).2 htl hkt
        (fun i hi hij => huniq i (List.mem_cons_of_mem a hi) hij)

theorem applyAdds_apply {α ι : Type} [AddMonoid α] (p : ι → Prop)
    [DecidablePred p] (k : ι → Int) (v : ι → α) (l : List ι) (f : Int → α)
    (j : Int) :
    applyAdds p k v l f j
      = f j + ((l.filter (fun i => decide (p i ∧ k i = j))).map v).sum := by
  induction l generalizing f with
  | nil => simp [applyAdds]
  | cons a l ih =>
    simp only [applyAdds, List.foldl_cons]
    simp only [applyAdds] at ih
    rw [List.filter_cons]
    by_cases hp : p a
    · rw [if_pos hp]
      by_cases hj : k a = j
      · subst hj
        rw [ih, Function.update_same, if_pos (by simp [hp])]
        simp [add_assoc]
      · rw [ih, Function.update_noteq (Ne.symm hj), if_neg (by simp [hj])]
    · rw [if_neg hp, ih, if_neg (by simp [hp])]

/-! ### The iteration space of the triple loops -/

theorem mem_rangeInt {n x : Int} : x ∈ rangeInt n ↔ 0 ≤ x ∧ x < n := by
  constructor
  · intro hx
    rcases List.mem_map.mp hx with ⟨m, hm, rfl⟩
    have := List.mem_range.mp hm
    omega
  · intro ⟨h0, hn⟩
    refine List.mem_map.mpr ⟨x.toNat, List.mem_range.mpr ?_, ?_⟩
    · omega
    · exact Int.toNat_of_nonneg h0

theorem nodup_rangeInt (n : Int) : (rangeInt n).Nodup :=
  List.Nodup.map (fun a b h => by exact_mod_cast h) (List.nodup_range n.toNat)

theorem mem_triples {cc hc wc : Int} {t : Int × Int × Int} :
    t ∈ triples cc hc wc ↔
      (0 ≤ t.1 ∧ t.1 < cc) ∧ (0 ≤ t.2.1 ∧ t.2.1 < hc) ∧
        (0 ≤ t.2.2 ∧ t.2.2 < wc) := by
  obtain ⟨c, h, w⟩ := t
  constructor
  · intro ht
    rcases List.mem_flatMap.mp ht with ⟨c', hc', ht⟩
    rcases List.mem_flatMap.mp ht with ⟨h', hh', ht⟩
    rcases List.mem_map.mp ht with ⟨w', hw', heq⟩
    obtain ⟨rfl, rfl, rfl⟩ : c' = c ∧ h' = h ∧ w' = w :=
      ⟨congrArg Prod.fst heq, congrArg (fun q => q.2.1) heq,
        congrArg (fun q => q.2.2) heq⟩
    exact ⟨mem_rangeInt.mp hc', mem_rangeInt.mp hh', mem_rangeInt.mp hw'⟩
  · rintro ⟨h1, h2, h3⟩
    exact List.mem_flatMap.mpr ⟨c, mem_rangeInt.mpr h1,
      List.mem_flatMap.mpr ⟨h, mem_rangeInt.mpr h2,
        List.mem_map.mpr ⟨w, mem_rangeInt.mpr h3, rfl⟩⟩⟩

theorem nodup_triples (cc hc wc : Int) : (triples cc hc wc).Nodup := by
  refine List.nodup_flatMap.mpr ⟨fun c _ => ?_, ?_⟩
  · refine List.nodup_flatMap.mpr ⟨fun h _ => ?_, ?_⟩
    · exact List.Nodup.map
        (fun w w' hw => by simpa using congrArg (fun q => q.2.2) hw)
        (nodup_rangeInt wc)
    · refine List.Pairwise.imp_of_mem ?_ (nodup_rangeInt hc)
      intro h h' _ _ hne t ht ht'
      rcases List.mem_map.mp ht with ⟨w, _, rfl⟩
      rcases List.mem_map.mp ht' with ⟨w', _, heq⟩
      exact hne (by simpa using congrArg (fun q => q.2.1) heq.symm)
  · refine List.Pairwise.imp_of_mem ?_ (nodup_rangeInt cc)
    intro c c' _ _ hne t ht ht'
    simp only [List.mem_flatMap, List.mem_map] at ht ht'
    rcases ht with ⟨h, _, w, _, rfl⟩
    rcases ht' with ⟨h', _, w', _, heq⟩
    exact hne (by simpa using congrArg (fun q => q.1) heq.symm)

/-! ### From nested loops to a flat list of writes -/

theorem im2col_cpu_eq_applyWrites {α : Type} [Zero α] (data_im : Int → α)
    (channels height width kernel_h kernel_w pad_h pad_w stride_h stride_w : Int)
    (data_col : Int → α) :
    im2col_cpu data_im channels height width kernel_h kernel_w pad_h pad_w
        stride_h stride_w data_col
      = applyWrites
          (colKey (channelsCol channels kernel_h kernel_w)
            (widthCol width kernel_w pad_w stride_w))
          (unfoldVal data_im height width kernel_h kernel_w pad_h pad_w
            stride_h stride_w)
          (triples (channelsCol channels kernel_h kernel_w)
            (heightCol height kernel_h pad_h stride_h)
            (widthCol width kernel_w pad_w stride_w))
          data_col := by
  simp only [im2col_cpu, applyWrites, triples, foldl_flatMap, List.foldl_map,
    colKey, unfoldVal, decodeT, inImage, colIndex]

theorem col2im_cpu_eq_applyAdds {α : Type} [Zero α] [Add α] (data_col : Int → α)
    (channels height width patch_h patch_w pad_h pad_w stride_h stride_w : Int)
    (data_im : Int → α) :
    col2im_cpu data_col channels height width patch_h patch_w pad_h pad_w
        stride_h stride_w data_im
      = applyAdds
          (fun t => inImage height width
            (decodeT patch_h patch_w pad_h pad_w stride_h stride_w t))
          (imKey height width patch_h patch_w pad_h pad_w stride_h stride_w)
          (fun t => data_col (colKey (channelsCol channels patch_h patch_w)
            (widthCol width patch_w pad_w stride_w) t))
          (triples (channelsCol channels patch_h patch_w)
            (heightCol height patch_h pad_h stride_h)
            (widthCol width patch_w pad_w stride_w))
          (applyWrites (fun i => i) (fun _ => 0)
            (rangeInt (height * width * channels)) data_im) := by
  simp only [col2im_cpu, applyAdds, applyWrites, triples, foldl_flatMap,
    List.foldl_map, colKey, imKey, unfoldVal, decodeT, inImage, colIndex]

/-! ### Injectivity of the two linear layouts -/

theorem mixed_radix_inj {a q1 r1 q2 r2 : Int} (h1 : 0 ≤ r1) (h1' : r1 < a)
    (h2 : 0 ≤ r2) (h2' : r2 < a) (heq : a * q1 + r1 = a * q2 + r2) :
    q1 = q2 ∧ r1 = r2 := by
  have ha : 0 < a := lt_of_le_of_lt h1 h1'
  have hq : q1 = q2 := by
    rcases lt_trichotomy q1 q2 with h | h | h
    · exfalso
      have : a * (q2 - q1) ≥ a * 1 :=
        mul_le_mul_of_nonneg_left (by omega) (le_of_lt ha)
      nlinarith
    · exact h
    · exfalso
      have : a * (q1 - q2) ≥ a * 1 :=
        mul_le_mul_of_nonneg_left (by omega) (le_of_lt ha)
      nlinarith
  subst hq
  exact ⟨rfl, by omega⟩

theorem colIndex_inj {cc wc h1 w1 c1 h2 w2 c2 : Int}
    (hc1 : 0 ≤ c1) (hc1' : c1 < cc) (hw1 : 0 ≤ w1) (hw1' : w1 < wc)
    (hc2 : 0 ≤ c2) (hc2' : c2 < cc) (hw2 : 0 ≤ w2) (hw2' : w2 < wc)
    (heq : colIndex cc wc h1 w1 c1 = colIndex cc wc h2 w2 c2) :
    h1 = h2 ∧ w1 = w2 ∧ c1 = c2 := by
  have h' : cc * (wc * h1 + w1) + c1 = cc * (wc * h2 + w2) + c2 := by
    simp only [colIndex] at heq; linarith [heq]
  obtain ⟨hq, hc⟩ := mixed_radix_inj hc1 hc1' hc2 hc2' h'
  obtain ⟨hh, hw⟩ := mixed_radix_inj hw1 hw1' hw2 hw2' hq
  exact ⟨hh, hw, hc⟩

theorem imIndex_inj {H W c1 hp1 wp1 c2 hp2 wp2 : Int}
    (hh1 : 0 ≤ hp1) (hh1' : hp1 < H) (hw1 : 0 ≤ wp1) (hw1' : wp1 < W)
    (hh2 : 0 ≤ hp2) (hh2' : hp2 < H) (hw2 : 0 ≤ wp2) (hw2' : wp2 < W)
    (heq : imIndex H W c1 hp1 wp1 = imIndex H W c2 hp2 wp2) :
    c1 = c2 ∧ hp1 = hp2 ∧ wp1 = wp2 := by
  have h' : W * (c1 * H + hp1) + wp1 = W * (c2 * H + hp2) + wp2 := by
    simp only [imIndex] at heq; linarith [heq]
  obtain ⟨hq, hw⟩ := mixed_radix_inj hw1 hw1' hw2 hw2' h'
  have h'' : H * c1 + hp1 = H * c2 + hp2 := by linarith [hq]
  obtain ⟨hc, hh⟩ := mixed_radix_inj hh1 hh1' hh2 hh2' h''
  exact ⟨hc, hh, hw⟩

/-! ### Arithmetic facts about the index decode -/

theorem ediv_ediv_eq {a b c : Int} (ha : 0 ≤ a) (hb : 0 < b) (hc : 0 < c) :
    a / b / c = a / (b * c) := by
  have h1 := Int.ediv_add_emod a b
  have h2 := Int.ediv_add_emod (a / b) c
  have hr0 : 0 ≤ a % b := Int.emod_nonneg a (ne_of_gt hb)
  have hr0' : a % b < b := Int.emod_lt_of_pos a hb
  have hr1 : 0 ≤ a / b % c := Int.emod_nonneg _ (ne_of_gt hc)
  have hr1' : a / b % c < c := Int.emod_lt_of_pos _ hc
  have hbc : 0 < b * c := mul_pos hb hc
  have key : b * (a / b % c) + a % b + b * c * (a / b / c) = a := by
    linear_combination b * h2 + h1
  have b1 : 0 ≤ b * (a / b % c) + a % b :=
    add_nonneg (mul_nonneg (le_of_lt hb) hr1) hr0
  have b2 : b * (a / b % c) + a % b < b * c := by
    have : b * (a / b % c) ≤ b * (c - 1) :=
      mul_le_mul_of_nonneg_left (by omega) (le_of_lt hb)
    nlinarith
  have h3 := (Int.ediv_emod_unique hbc).mpr ⟨key, b1, b2⟩
  exact h3.1.symm

/-- Inside both loops the decode is computed with C truncating division
and remainder; on the nonnegative loop counter with positive kernel
dimensions this agrees with the floor-division formulas of the spec,
with `c_im = c / (kernel_h * kernel_w)`. -/
theorem decodeT_eq_spec (kernel_h kernel_w pad_h pad_w stride_h stride_w : Int)
    (hkh : 1 ≤ kernel_h) (hkw : 1 ≤ kernel_w) (t : Int × Int × Int)
    (hc : 0 ≤ t.1) :
    decodeT kernel_h kernel_w pad_h pad_w stride_h stride_w t
      = (t.1 / (kernel_h * kernel_w),
         t.2.1 * stride_h - pad_h + t.1 / kernel_w % kernel_h,
         t.2.2 * stride_w - pad_w + t.1 % kernel_w) := by
  have hkh' : (0:Int) < kernel_h := by omega
  have hkw' : (0:Int) < kernel_w := by omega
  have e1 : t.1.tmod kernel_w = t.1 % kernel_w :=
    Int.tmod_eq_emod hc (le_of_lt hkw')
  have e2 : t.1.tdiv kernel_w = t.1 / kernel_w :=
    Int.tdiv_eq_ediv hc (le_of_lt hkw')
  have e3 : t.1.tdiv kernel_h = t.1 / kernel_h :=
    Int.tdiv_eq_ediv hc (le_of_lt hkh')
  have e4 : (t.1 / kernel_w).tmod kernel_h = t.1 / kernel_w % kernel_h :=
    Int.tmod_eq_emod (Int.ediv_nonneg hc (le_of_lt hkw')) (le_of_lt hkh')
  have e5 : (t.1 / kernel_h).tdiv kernel_w = t.1 / kernel_h / kernel_w :=
    Int.tdiv_eq_ediv (Int.ediv_nonneg hc (le_of_lt hkh')) (le_of_lt hkw')
  have e6 : t.1 / kernel_h / kernel_w = t.1 / (kernel_h * kernel_w) :=
    ediv_ediv_eq hc hkh' hkw'
  simp only [decodeT, e1, e2, e3, e4, e5, e6]

/-- Decoding the composite index
`c = c_im * kernel_h * kernel_w + h_offset * kernel_w + w_offset`
recovers `(c_im, h*stride_h - pad_h + h_offset, w*stride_w - pad_w + w_offset)`. -/
theorem decodeT_encode (kernel_h kernel_w pad_h pad_w stride_h stride_w : Int)
    (hkh : 1 ≤ kernel_h) (hkw : 1 ≤ kernel_w)
    (c_im h_off w_off h w : Int) (hci : 0 ≤ c_im)
    (hho : 0 ≤ h_off) (hho' : h_off < kernel_h)
    (hwo : 0 ≤ w_off) (hwo' : w_off < kernel_w) :
    decodeT kernel_h kernel_w pad_h pad_w stride_h stride_w
        (c_im * kernel_h * kernel_w + h_off * kernel_w + w_off, h, w)
      = (c_im, h * stride_h - pad_h + h_off, w * stride_w - pad_w + w_off) := by
  have hkh' : (0:Int) < kernel_h := by omega
  have hkw' : (0:Int) < kernel_w := by omega
  have hc : 0 ≤ c_im * kernel_h * kernel_w + h_off * kernel_w + w_off := by
    have := mul_nonneg (mul_nonneg hci (le_of_lt hkh')) (le_of_lt hkw')
    have := mul_nonneg hho (le_of_lt hkw')
    omega
  rw [decodeT_eq_spec kernel_h kernel_w pad_h pad_w stride_h stride_w hkh hkw _ hc]
  have hmod : (c_im * kernel_h * kernel_w + h_off * kernel_w + w_off)
      % kernel_w = w_off := by
    have h1 : c_im * kernel_h * kernel_w + h_off * kernel_w + w_off
        = w_off + (c_im * kernel_h + h_off) * kernel_w := by ring
    rw [h1, Int.add_mul_emod_self, Int.emod_eq_of_lt hwo hwo']
  have hdiv : (c_im * kernel_h * kernel_w + h_off * kernel_w + w_off)
      / kernel_w = c_im * kernel_h + h_off := by
    have h1 : c_im * kernel_h * kernel_w + h_off * kernel_w + w_off
        = w_off + (c_im * kernel_h + h_off) * kernel_w := by ring
    rw [h1, Int.add_mul_ediv_right _ _ (ne_of_gt hkw'),
      Int.ediv_eq_zero_of_lt hwo hwo', zero_add]
  have hmod2 : (c_im * kernel_h + h_off) % kernel_h = h_off := by
    have h1 : c_im * kernel_h + h_off = h_off + c_im * kernel_h := by ring
    rw [h1, Int.add_mul_emod_self, Int.emod_eq_of_lt hho hho']
  have hdivkk : (c_im * kernel_h * kernel_w + h_off * kernel_w + w_off)
      / (kernel_h * kernel_w) = c_im := by
    have h1 : c_im * kernel_h * kernel_w + h_off * kernel_w + w_off
        = (h_off * kernel_w + w_off) + c_im * (kernel_h * kernel_w) := by ring
    have hrlt : h_off * kernel_w + w_off < kernel_h * kernel_w := by
      have : h_off * kernel_w ≤ (kernel_h - 1) * kernel_w :=
        mul_le_mul_of_nonneg_right (by omega) (le_of_lt hkw')
      nlinarith
    have hrnn : 0 ≤ h_off * kernel_w + w_off := by
      have := mul_nonneg hho (le_of_lt hkw')
      omega
    rw [h1, Int.add_mul_ediv_right _ _ (ne_of_gt (mul_pos hkh' hkw')),
      Int.ediv_eq_zero_of_lt hrnn hrlt, zero_add]
  rw [hmod, hdiv, hmod2, hdivkk]

/-- Any nonnegative composite index is rebuilt from its decode:
`c = c_im * kernel_h * kernel_w + h_offset * kernel_w + w_offset`. -/
theorem encode_decodeT (kernel_h kernel_w pad_h pad_w stride_h stride_w : Int)
    (hkh : 1 ≤ kernel_h) (hkw : 1 ≤ kernel_w) (t : Int × Int × Int)
    (hc : 0 ≤ t.1) :
    t.1 = (decodeT kernel_h kernel_w pad_h pad_w stride_h stride_w t).1
            * kernel_h * kernel_w
          + ((decodeT kernel_h kernel_w pad_h pad_w stride_h stride_w t).2.1
              - (t.2.1 * stride_h - pad_h)) * kernel_w
          + ((decodeT kernel_h kernel_w pad_h pad_w stride_h stride_w t).2.2
              - (t.2.2 * stride_w - pad_w)) := by
  have hkh' : (0:Int) < kernel_h := by omega
  have hkw' : (0:Int) < kernel_w := by omega
  rw [decodeT_eq_spec kernel_h kernel_w pad_h pad_w stride_h stride_w hkh hkw t hc]
  have h1 := Int.ediv_add_emod t.1 kernel_w
  have h2 := Int.ediv_add_emod (t.1 / kernel_w) kernel_h
  have h3 : t.1 / kernel_w / kernel_h = t.1 / (kernel_h * kernel_w) := by
    rw [ediv_ediv_eq hc hkw' hkh', mul_comm]
  simp only
  linear_combination (-1 : Int) * h1 - kernel_w * h2
    + (kernel_w * kernel_h) * h3

/-- Bounds on the decoded offsets of a nonnegative composite index. -/
theorem decodeT_offset_bounds (kernel_h kernel_w pad_h pad_w stride_h stride_w :
    Int) (hkh : 1 ≤ kernel_h) (hkw : 1 ≤ kernel_w) (t : Int × Int × Int)
    (hc : 0 ≤ t.1) :
    t.2.1 * stride_h - pad_h
        ≤ (decodeT kernel_h kernel_w pad_h pad_w stride_h stride_w t).2.1
      ∧ (decodeT kernel_h kernel_w pad_h pad_w stride_h stride_w t).2.1
        < t.2.1 * stride_h - pad_h + kernel_h
      ∧ t.2.2 * stride_w - pad_w
        ≤ (decodeT kernel_h kernel_w pad_h pad_w stride_h stride_w t).2.2
      ∧ (decodeT kernel_h kernel_w pad_h pad_w stride_h stride_w t).2.2
        < t.2.2 * stride_w - pad_w + kernel_w := by
  have hkh' : (0:Int) < kernel_h := by omega
  have hkw' : (0:Int) < kernel_w := by omega
  rw [decodeT_eq_spec kernel_h kernel_w pad_h pad_w stride_h stride_w hkh hkw t hc]
  have b1 : 0 ≤ t.1 / kernel_w % kernel_h := Int.emod_nonneg _ (ne_of_gt hkh')
  have b2 : t.1 / kernel_w % kernel_h < kernel_h := Int.emod_lt_of_pos _ hkh'
  have b3 : 0 ≤ t.1 % kernel_w := Int.emod_nonneg _ (ne_of_gt hkw')
  have b4 : t.1 % kernel_w < kernel_w := Int.emod_lt_of_pos _ hkw'
  simp only
  omega

/-! ### Per-slot characterization of the two routines -/

/-- The slot written at iteration triple `t` of Unfold holds exactly the
value of that iteration, for any prior contents of the output buffer. -/
theorem im2col_apply_triple {α : Type} [Zero α] (data_im : Int → α)
    (channels height width kernel_h kernel_w pad_h pad_w stride_h stride_w : Int)
    (data_col : Int → α) (t : Int × Int × Int)
    (ht : t ∈ triples (channelsCol channels kernel_h kernel_w)
      (heightCol height kernel_h pad_h stride_h)
      (widthCol width kernel_w pad_w stride_w)) :
    im2col_cpu data_im channels height width kernel_h kernel_w pad_h pad_w
        stride_h stride_w data_col
        (colKey (channelsCol channels kernel_h kernel_w)
          (widthCol width kernel_w pad_w stride_w) t)
      = unfoldVal data_im height width kernel_h kernel_w pad_h pad_w
          stride_h stride_w t := by
  rw [im2col_cpu_eq_applyWrites]
  refine applyWrites_hit _ _ _ data_col _ t (nodup_triples _ _ _) ht rfl ?_
  intro i hi hk
  obtain ⟨hic, hih, hiw⟩ := mem_triples.mp hi
  obtain ⟨htc, hth, htw⟩ := mem_triples.mp ht
  obtain ⟨h1, h2, h3⟩ := colIndex_inj hic.1 hic.2 hiw.1 hiw.2
    htc.1 htc.2 htw.1 htw.2 hk
  exact Prod.ext h3 (Prod.ext h1 h2)

/-- A location that is the target of no iteration triple of Unfold keeps
the prior contents of the output buffer. -/
theorem im2col_apply_miss {α : Type} [Zero α] (data_im : Int → α)
    (channels height width kernel_h kernel_w pad_h pad_w stride_h stride_w : Int)
    (data_col : Int → α) (j : Int)
    (hj : ∀ t ∈ triples (channelsCol channels kernel_h kernel_w)
      (heightCol height kernel_h pad_h stride_h)
      (widthCol width kernel_w pad_w stride_w),
      colKey (channelsCol channels kernel_h kernel_w)
        (widthCol width kernel_w pad_w stride_w) t ≠ j) :
    im2col_cpu data_im channels height width kernel_h kernel_w pad_h pad_w
        stride_h stride_w data_col j = data_col j := by
  rw [im2col_cpu_eq_applyWrites]
  exact applyWrites_miss _ _ _ data_col j hj

theorem zeroInit_in {α : Type} [Zero α] (n : Int) (f : Int → α) (j : Int)
    (h0 : 0 ≤ j) (hn : j < n) :
    applyWrites (fun i => i) (fun _ => (0 : α)) (rangeInt n) f j = 0 :=
  applyWrites_hit _ _ _ f j j (nodup_rangeInt n) (mem_rangeInt.mpr ⟨h0, hn⟩)
    rfl (fun _ _ hi => hi)

/-- The value of any image-buffer element after Fold: the zero from the
initialization plus the sum, in iteration order, of the patch values of
all in-bounds iteration triples targeting that element. -/
theorem col2im_apply {α : Type} [AddMonoid α] (data_col : Int → α)
    (channels height width patch_h patch_w pad_h pad_w stride_h stride_w : Int)
    (data_im : Int → α) (j : Int) (h0 : 0 ≤ j)
    (hn : j < height * width * channels) :
    col2im_cpu data_col channels height width patch_h patch_w pad_h pad_w
        stride_h stride_w data_im j
      = (((triples (channelsCol channels patch_h patch_w)
            (heightCol height patch_h pad_h stride_h)
            (widthCol width patch_w pad_w stride_w)).filter
          (fun t => decide (inImage height width
              (decodeT patch_h patch_w pad_h pad_w stride_h stride_w t)
            ∧ imKey height width patch_h patch_w pad_h pad_w stride_h
                stride_w t = j))).map
          (fun t => data_col (colKey (channelsCol channels patch_h patch_w)
            (widthCol width patch_w pad_w stride_w) t))).sum := by
  rw [col2im_cpu_eq_applyAdds, applyAdds_apply, zeroInit_in _ _ _ h0 hn,
    zero_add]

/-! ### Further list helpers -/

theorem filter_eq_singleton {ι : Type} (p : ι → Bool) :
    ∀ (l : List ι) (t : ι), l.Nodup → t ∈ l → p t = true →
      (∀ i ∈ l, p i = true → i = t) → l.filter p = [t] := by
  intro l
  induction l with
  | nil => intro t _ ht; exact absurd ht (List.not_mem_nil t)
  | cons a l ih =>
    intro t hnd ht hp huniq
    rw [List.filter_cons]
    by_cases ha : p a = true
    · have hat : a = t := huniq a (List.mem_cons_self a l) ha
      subst hat
      rw [if_pos ha]
      have : l.filter p = [] := by
        refine List.filter_eq_nil_iff.mpr ?_
        intro b hb hpb
        exact (List.nodup_cons.mp hnd).1
          ((huniq b (List.mem_cons_of_mem a hb) hpb) ▸ hb)
      rw [this]
    · rw [if_neg ha]
      have htl : t ∈ l := by
        rcases List.mem_cons.mp ht with h | h
        · subst h; exact absurd hp ha
        · exact h
      exact ih t (List.nodup_cons.mp hnd).2 htl hp
        (fun i hi hpi => huniq i (List.mem_cons_of_mem a hi) hpi)

theorem sum_map_one {ι : Type} (l : List ι) :
    (l.map (fun _ => (1 : Int))).sum = (l.length : Int) := by
  induction l with
  | nil => rfl
  | cons a l ih =>
    simp only [List.map_cons, List.sum_cons, ih, List.length_cons]
    push_cast
    omega

theorem triples_eq_nil {cc hc wc : Int} (h : hc ≤ 0 ∨ wc ≤ 0) :
    triples cc hc wc = [] := by
  refine List.eq_nil_iff_forall_not_mem.mpr fun t ht => ?_
  obtain ⟨_, hh, hw⟩ := mem_triples.mp ht
  omega

/-- Fold at an in-bounds image location `(c_im, h_pad, w_pad)`: the sum,
in iteration order, of the patch values of exactly those iteration
triples whose decode lands on that location. -/
theorem col2im_at_loc {α : Type} [AddMonoid α] (data_col : Int → α)
    (channels height width patch_h patch_w pad_h pad_w stride_h stride_w : Int)
    (data_im : Int → α) (c_im h_pad w_pad : Int)
    (hc0 : 0 ≤ c_im) (hc1 : c_im < channels)
    (hh0 : 0 ≤ h_pad) (hh1 : h_pad < height)
    (hw0 : 0 ≤ w_pad) (hw1 : w_pad < width) :
    col2im_cpu data_col channels height width patch_h patch_w pad_h pad_w
        stride_h stride_w data_im (imIndex height width c_im h_pad w_pad)
      = (((triples (channelsCol channels patch_h patch_w)
            (heightCol height patch_h pad_h stride_h)
            (widthCol width patch_w pad_w stride_w)).filter
          (fun t => decide (decodeT patch_h patch_w pad_h pad_w stride_h
            stride_w t = (c_im, h_pad, w_pad)))).map
          (fun t => data_col (colKey (channelsCol channels patch_h patch_w)
            (widthCol width patch_w pad_w stride_w) t))).sum := by
  have hj0 : 0 ≤ imIndex height width c_im h_pad w_pad := by
    simp only [imIndex]
    have h1 : 0 ≤ c_im * height := mul_nonneg hc0 (by omega)
    have h2 : 0 ≤ (c_im * height + h_pad) * width :=
      mul_nonneg (by omega) (by omega)
    omega
  have hjn : imIndex height width c_im h_pad w_pad
      < height * width * channels := by
    simp only [imIndex]
    nlinarith [mul_le_mul_of_nonneg_right
      (show c_im * height + h_pad ≤ channels * height - 1 by nlinarith)
      (show (0:Int) ≤ width by omega)]
  rw [col2im_apply data_col channels height width patch_h patch_w pad_h pad_w
    stride_h stride_w data_im _ hj0 hjn]
  have hfilt :
      ((triples (channelsCol channels patch_h patch_w)
          (heightCol height patch_h pad_h stride_h)
          (widthCol width patch_w pad_w stride_w)).filter
        (fun t => decide (inImage height width
            (decodeT patch_h patch_w pad_h pad_w stride_h stride_w t)
          ∧ imKey height width patch_h patch_w pad_h pad_w stride_h stride_w t
            = imIndex height width c_im h_pad w_pad)))
      = ((triples (channelsCol channels patch_h patch_w)
          (heightCol height patch_h pad_h stride_h)
          (widthCol width patch_w pad_w stride_w)).filter
        (fun t => decide (decodeT patch_h patch_w pad_h pad_w stride_h
          stride_w t = (c_im, h_pad, w_pad)))) := by
    refine List.filter_congr fun t _ => ?_
    rw [decide_eq_decide]
    constructor
    · rintro ⟨hin, hkey⟩
      obtain ⟨a1, a2, a3, a4⟩ := hin
      simp only [imKey] at hkey
      obtain ⟨d1, d2, d3⟩ := imIndex_inj a1 a2 a3 a4 hh0 hh1 hw0 hw1 hkey
      exact Prod.ext d1 (Prod.ext d2 d3)
    · intro hd
      refine ⟨?_, ?_⟩
      · rw [hd]
        exact ⟨hh0, hh1, hw0, hw1⟩
      · simp only [imKey, hd]
  rw [hfilt]

theorem sum_map_zero {ι : Type} (l : List ι) :
    (l.map (fun _ => (0 : Int))).sum = 0 := by
  induction l with
  | nil => rfl
  | cons a l ih => simpa using ih

/-! ### The claims -/

/-- C1: for a geometry with positive channels, image, kernel and stride
dimensions and at least one output position, Unfold writes into
patch-matrix slot `channels_col*width_col*h + channels_col*w + c` the
image value at linear offset `(c_im*height + h_pad)*width + w_pad` when
`(h_pad, w_pad)` lies in `[0, height) × [0, width)` and zero otherwise,
where `w_offset = c % kernel_w`, `h_offset = (c / kernel_w) % kernel_h`,
`c_im = c / (kernel_h * kernel_w)` (floor division),
`h_pad = h*stride_h - pad_h + h_offset` and
`w_pad = w*stride_w - pad_w + w_offset`. -/
theorem C1_unfold_slot_value {α : Type} [Zero α] (data_im data_col : Int → α)
    (channels height width kernel_h kernel_w pad_h pad_w stride_h stride_w
      h w c : Int)
    (hch : 1 ≤ channels) (hh : 1 ≤ height) (hw : 1 ≤ width)
    (hkh : 1 ≤ kernel_h) (hkw : 1 ≤ kernel_w)
    (hsh : 1 ≤ stride_h) (hsw : 1 ≤ stride_w)
    (hhc : 1 ≤ heightCol height kernel_h pad_h stride_h)
    (hwc : 1 ≤ widthCol width kernel_w pad_w stride_w)
    (hhb : 0 ≤ h) (hhb' : h < heightCol height kernel_h pad_h stride_h)
    (hwb : 0 ≤ w) (hwb' : w < widthCol width kernel_w pad_w stride_w)
    (hcb : 0 ≤ c) (hcb' : c < channelsCol channels kernel_h kernel_w) :
    im2col_cpu data_im channels height width kernel_h kernel_w pad_h pad_w
        stride_h stride_w data_col
        (channelsCol channels kernel_h kernel_w
            * widthCol width kernel_w pad_w stride_w * h
          + channelsCol channels kernel_h kernel_w * w + c)
      = if 0 ≤ h * stride_h - pad_h + c / kernel_w % kernel_h
          ∧ h * stride_h - pad_h + c / kernel_w % kernel_h < height
          ∧ 0 ≤ w * stride_w - pad_w + c % kernel_w
          ∧ w * stride_w - pad_w + c % kernel_w < width then
          data_im ((c / (kernel_h * kernel_w) * height
              + (h * stride_h - pad_h + c / kernel_w % kernel_h)) * width
            + (w * stride_w - pad_w + c % kernel_w))
        else 0 := by
  have ht : ((c, h, w) : Int × Int × Int)
      ∈ triples (channelsCol channels kernel_h kernel_w)
        (heightCol height kernel_h pad_h stride_h)
        (widthCol width kernel_w pad_w stride_w) :=
    mem_triples.mpr ⟨⟨hcb, hcb'⟩, ⟨hhb, hhb'⟩, ⟨hwb, hwb'⟩⟩
  have key := im2col_apply_triple data_im channels height width kernel_h
    kernel_w pad_h pad_w stride_h stride_w data_col (c, h, w) ht
  rw [unfoldVal, decodeT_eq_spec kernel_h kernel_w pad_h pad_w stride_h
    stride_w hkh hkw (c, h, w) hcb] at key
  simpa [colKey, colIndex, inImage, imIndex] using key

/-- C2: Fold zero-initializes the image buffer and then the final value at
each in-bounds image location `(c_im, h_pad, w_pad)` equals the sum, over
all iteration triples `(c, h, w)` whose decoded coordinates land exactly
on that location, of the patch-matrix value at slot
`channels_col*width_col*h + channels_col*w + c`; out-of-bounds
contributions are dropped. -/
theorem C2_fold_sum_of_covering {α : Type} [AddMonoid α] (data_col : Int → α)
    (channels height width patch_h patch_w pad_h pad_w stride_h stride_w : Int)
    (data_im : Int → α)
    (hhc : 1 ≤ heightCol height patch_h pad_h stride_h)
    (hwc : 1 ≤ widthCol width patch_w pad_w stride_w)
    (c_im h_pad w_pad : Int)
    (hc0 : 0 ≤ c_im) (hc1 : c_im < channels)
    (hh0 : 0 ≤ h_pad) (hh1 : h_pad < height)
    (hw0 : 0 ≤ w_pad) (hw1 : w_pad < width) :
    col2im_cpu data_col channels height width patch_h patch_w pad_h pad_w
        stride_h stride_w data_im (imIndex height width c_im h_pad w_pad)
      = (((triples (channelsCol channels patch_h patch_w)
            (heightCol height patch_h pad_h stride_h)
            (widthCol width patch_w pad_w stride_w)).filter
          (fun t => decide (decodeT patch_h patch_w pad_h pad_w stride_h
            stride_w t = (c_im, h_pad, w_pad)))).map
          (fun t => data_col (colIndex (channelsCol channels patch_h patch_w)
            (widthCol width patch_w pad_w stride_w) t.2.1 t.2.2 t.1))).sum :=
  col2im_at_loc data_col channels height width patch_h patch_w pad_h pad_w
    stride_h stride_w data_im c_im h_pad w_pad hc0 hc1 hh0 hh1 hw0 hw1

/-- C4: with overlapping patches (stride smaller than kernel in some
direction), Fold of an all-ones patch matrix produces at each in-bounds
image location exactly the number of iteration triples whose decoded
in-bounds coordinates equal that location. -/
theorem C4_fold_ones_gives_coverage_count
    (channels height width patch_h patch_w pad_h pad_w stride_h stride_w : Int)
    (data_im : Int → Int)
    (hover : stride_h < patch_h ∨ stride_w < patch_w)
    (hhc : 1 ≤ heightCol height patch_h pad_h stride_h)
    (hwc : 1 ≤ widthCol width patch_w pad_w stride_w)
    (c_im h_pad w_pad : Int)
    (hc0 : 0 ≤ c_im) (hc1 : c_im < channels)
    (hh0 : 0 ≤ h_pad) (hh1 : h_pad < height)
    (hw0 : 0 ≤ w_pad) (hw1 : w_pad < width) :
    col2im_cpu (fun _ => (1 : Int)) channels height width patch_h patch_w
        pad_h pad_w stride_h stride_w data_im
        (imIndex height width c_im h_pad w_pad)
      = (((triples (channelsCol channels patch_h patch_w)
            (heightCol height patch_h pad_h stride_h)
            (widthCol width patch_w pad_w stride_w)).filter
          (fun t => decide (decodeT patch_h patch_w pad_h pad_w stride_h
            stride_w t = (c_im, h_pad, w_pad)))).length : Int) := by
  rw [col2im_at_loc (fun _ => (1 : Int)) channels height width patch_h patch_w
    pad_h pad_w stride_h stride_w data_im c_im h_pad w_pad hc0 hc1 hh0 hh1
    hw0 hw1]
  exact sum_map_one _

/-- C6: with nonzero padding, Unfold of an all-ones image writes zero into
exactly the slots whose decoded coordinates fall outside the image and
one into every other slot. -/
theorem C6_padding_slots_zero {α : Type} [Zero α] [One α] (data_col : Int → α)
    (channels height width kernel_h kernel_w pad_h pad_w stride_h stride_w
      h w c : Int)
    (hpad : 1 ≤ pad_h ∨ 1 ≤ pad_w)
    (hhc : 1 ≤ heightCol height kernel_h pad_h stride_h)
    (hwc : 1 ≤ widthCol width kernel_w pad_w stride_w)
    (hhb : 0 ≤ h) (hhb' : h < heightCol height kernel_h pad_h stride_h)
    (hwb : 0 ≤ w) (hwb' : w < widthCol width kernel_w pad_w stride_w)
    (hcb : 0 ≤ c) (hcb' : c < channelsCol channels kernel_h kernel_w) :
    im2col_cpu (fun _ => (1 : α)) channels height width kernel_h kernel_w
        pad_h pad_w stride_h stride_w data_col
        (colIndex (channelsCol channels kernel_h kernel_w)
          (widthCol width kernel_w pad_w stride_w) h w c)
      = if inImage height width
          (decodeT kernel_h kernel_w pad_h pad_w stride_h stride_w (c, h, w))
        then 1 else 0 := by
  have ht : ((c, h, w) : Int × Int × Int)
      ∈ triples (channelsCol channels kernel_h kernel_w)
        (heightCol height kernel_h pad_h stride_h)
        (widthCol width kernel_w pad_w stride_w) :=
    mem_triples.mpr ⟨⟨hcb, hcb'⟩, ⟨hhb, hhb'⟩, ⟨hwb, hwb'⟩⟩
  have key := im2col_apply_triple (fun _ => (1 : α)) channels height width
    kernel_h kernel_w pad_h pad_w stride_h stride_w data_col (c, h, w) ht
  simpa [colKey, colIndex, unfoldVal] using key

/-- C7: with a valid geometry, every slot of the output patch matrix is
written by exactly one iteration of Unfold, and the final contents of
every slot are independent of the prior contents of the output buffer. -/
theorem C7_unfold_every_slot_once {α : Type} [Zero α] (data_im : Int → α)
    (channels height width kernel_h kernel_w pad_h pad_w stride_h stride_w
      j : Int)
    (hch : 1 ≤ channels) (hkh : 1 ≤ kernel_h) (hkw : 1 ≤ kernel_w)
    (hhc : 1 ≤ heightCol height kernel_h pad_h stride_h)
    (hwc : 1 ≤ widthCol width kernel_w pad_w stride_w)
    (hj0 : 0 ≤ j)
    (hjn : j < heightCol height kernel_h pad_h stride_h
      * widthCol width kernel_w pad_w stride_w
      * channelsCol channels kernel_h kernel_w) :
    ((triples (channelsCol channels kernel_h kernel_w)
        (heightCol height kernel_h pad_h stride_h)
        (widthCol width kernel_w pad_w stride_w)).filter
      (fun t => decide (colKey (channelsCol channels kernel_h kernel_w)
        (widthCol width kernel_w pad_w stride_w) t = j))).length = 1
    ∧ ∀ (d1 d2 : Int → α),
      im2col_cpu data_im channels height width kernel_h kernel_w pad_h pad_w
          stride_h stride_w d1 j
        = im2col_cpu data_im channels height width kernel_h kernel_w pad_h
            pad_w stride_h stride_w d2 j := by
  have hcpos : (0:Int) < channelsCol channels kernel_h kernel_w := by
    have := mul_pos (mul_pos (show (0:Int) < channels by omega)
      (show (0:Int) < kernel_h by omega)) (show (0:Int) < kernel_w by omega)
    simpa [channelsCol] using this
  have hwpos : (0:Int) < widthCol width kernel_w pad_w stride_w := by omega
  have hc0 : 0 ≤ j % channelsCol channels kernel_h kernel_w :=
    Int.emod_nonneg j (ne_of_gt hcpos)
  have hc1 : j % channelsCol channels kernel_h kernel_w
      < channelsCol channels kernel_h kernel_w := Int.emod_lt_of_pos j hcpos
  have hm0 : 0 ≤ j / channelsCol channels kernel_h kernel_w :=
    Int.ediv_nonneg hj0 (le_of_lt hcpos)
  have hm1 : j / channelsCol channels kernel_h kernel_w
      < heightCol height kernel_h pad_h stride_h
        * widthCol width kernel_w pad_w stride_w :=
    (Int.ediv_lt_iff_lt_mul hcpos).mpr hjn
  have hw0 : 0 ≤ j / channelsCol channels kernel_h kernel_w
      % widthCol width kernel_w pad_w stride_w :=
    Int.emod_nonneg _ (ne_of_gt hwpos)
  have hw1 : j / channelsCol channels kernel_h kernel_w
      % widthCol width kernel_w pad_w stride_w
      < widthCol width kernel_w pad_w stride_w := Int.emod_lt_of_pos _ hwpos
  have hh0 : 0 ≤ j / channelsCol channels kernel_h kernel_w
      / widthCol width kernel_w pad_w stride_w :=
    Int.ediv_nonneg hm0 (le_of_lt hwpos)
  have hh1 : j / channelsCol channels kernel_h kernel_w
      / widthCol width kernel_w pad_w stride_w
      < heightCol height kernel_h pad_h stride_h :=
    (Int.ediv_lt_iff_lt_mul hwpos).mpr hm1
  have hmem : ((j % channelsCol channels kernel_h kernel_w,
      j / channelsCol channels kernel_h kernel_w
        / widthCol width kernel_w pad_w stride_w,
      j / channelsCol channels kernel_h kernel_w
        % widthCol width kernel_w pad_w stride_w) : Int × Int × Int)
      ∈ triples (channelsCol channels kernel_h kernel_w)
        (heightCol height kernel_h pad_h stride_h)
        (widthCol width kernel_w pad_w stride_w) :=
    mem_triples.mpr ⟨⟨hc0, hc1⟩, ⟨hh0, hh1⟩, ⟨hw0, hw1⟩⟩
  have hkey : colKey (channelsCol channels kernel_h kernel_w)
      (widthCol width kernel_w pad_w stride_w)
      (j % channelsCol channels kernel_h kernel_w,
       j / channelsCol channels kernel_h kernel_w
         / widthCol width kernel_w pad_w stride_w,
       j / channelsCol channels kernel_h kernel_w
         % widthCol width kernel_w pad_w stride_w) = j := by
    simp only [colKey, colIndex]
    have e1 := Int.ediv_add_emod (j / channelsCol channels kernel_h kernel_w)
      (widthCol width kernel_w pad_w stride_w)
    have e2 := Int.ediv_add_emod j (channelsCol channels kernel_h kernel_w)
    linear_combination channelsCol channels kernel_h kernel_w * e1 + e2
  have huniq : ∀ i ∈ triples (channelsCol channels kernel_h kernel_w)
      (heightCol height kernel_h pad_h stride_h)
      (widthCol width kernel_w pad_w stride_w),
      colKey (channelsCol channels kernel_h kernel_w)
        (widthCol width kernel_w pad_w stride_w) i = j →
      i = (j % channelsCol channels kernel_h kernel_w,
        j / channelsCol channels kernel_h kernel_w
          / widthCol width kernel_w pad_w stride_w,
        j / channelsCol channels kernel_h kernel_w
          % widthCol width kernel_w pad_w stride_w) := by
    intro i hi hik
    obtain ⟨hic, hih, hiw⟩ := mem_triples.mp hi
    have heq : colIndex (channelsCol channels kernel_h kernel_w)
        (widthCol width kernel_w pad_w stride_w) i.2.1 i.2.2 i.1
        = colIndex (channelsCol channels kernel_h kernel_w)
          (widthCol width kernel_w pad_w stride_w)
          (j / channelsCol channels kernel_h kernel_w
            / widthCol width kernel_w pad_w stride_w)
          (j / channelsCol channels kernel_h kernel_w
            % widthCol width kernel_w pad_w stride_w)
          (j % channelsCol channels kernel_h kernel_w) := by
      have := hkey
      simp only [colKey] at this hik
      rw [hik, this]
    obtain ⟨d1, d2, d3⟩ := colIndex_inj hic.1 hic.2 hiw.1 hiw.2 hc0 hc1
      hw0 hw1 heq
    exact Prod.ext d3 (Prod.ext d1 d2)
  constructor
  · rw [filter_eq_singleton _ _ _ (nodup_triples _ _ _) hmem
      (by simp [hkey]) (fun i hi hpi => huniq i hi (by simpa using hpi))]
    rfl
  · intro d1 d2
    rw [← hkey, im2col_apply_triple data_im channels height width kernel_h
      kernel_w pad_h pad_w stride_h stride_w d1 _ hmem,
      im2col_apply_triple data_im channels height width kernel_h kernel_w
        pad_h pad_w stride_h stride_w d2 _ hmem]

/-- C8: an in-bounds image location that is the decoded target of no
iteration triple holds exactly zero after Fold, for any patch matrix and
any prior contents of the image buffer. -/
theorem C8_uncovered_location_zero {α : Type} [AddMonoid α]
    (data_col : Int → α)
    (channels height width patch_h patch_w pad_h pad_w stride_h stride_w : Int)
    (data_im : Int → α)
    (hhc : 1 ≤ heightCol height patch_h pad_h stride_h)
    (hwc : 1 ≤ widthCol width patch_w pad_w stride_w)
    (c_im h_pad w_pad : Int)
    (hc0 : 0 ≤ c_im) (hc1 : c_im < channels)
    (hh0 : 0 ≤ h_pad) (hh1 : h_pad < height)
    (hw0 : 0 ≤ w_pad) (hw1 : w_pad < width)
    (hnone : ∀ t ∈ triples (channelsCol channels patch_h patch_w)
      (heightCol height patch_h pad_h stride_h)
      (widthCol width patch_w pad_w stride_w),
      decodeT patch_h patch_w pad_h pad_w stride_h stride_w t
        ≠ (c_im, h_pad, w_pad)) :
    col2im_cpu data_col channels height width patch_h patch_w pad_h pad_w
        stride_h stride_w data_im (imIndex height width c_im h_pad w_pad)
      = 0 := by
  rw [col2im_at_loc data_col channels height width patch_h patch_w pad_h
    pad_w stride_h stride_w data_im c_im h_pad w_pad hc0 hc1 hh0 hh1 hw0 hw1]
  have hempty : ((triples (channelsCol channels patch_h patch_w)
      (heightCol height patch_h pad_h stride_h)
      (widthCol width patch_w pad_w stride_w)).filter
      (fun t => decide (decodeT patch_h patch_w pad_h pad_w stride_h stride_w
        t = (c_im, h_pad, w_pad)))) = [] :=
    List.filter_eq_nil_iff.mpr fun t ht => by simpa using hnone t ht
  rw [hempty]
  rfl

/-- C9: over the integers, Fold is additive in its patch-matrix input and
maps the all-zero patch matrix to the all-zero image, elementwise over
the image buffer and independently of the prior buffer contents. -/
theorem C9_fold_additive
    (channels height width patch_h patch_w pad_h pad_w stride_h stride_w : Int)
    (p1 p2 : Int → Int) (init1 init2 init3 init4 : Int → Int) (j : Int)
    (h0 : 0 ≤ j) (hn : j < height * width * channels) :
    col2im_cpu (fun i => p1 i + p2 i) channels height width patch_h patch_w
        pad_h pad_w stride_h stride_w init1 j
      = col2im_cpu p1 channels height width patch_h patch_w pad_h pad_w
          stride_h stride_w init2 j
        + col2im_cpu p2 channels height width patch_h patch_w pad_h pad_w
            stride_h stride_w init3 j
    ∧ col2im_cpu (fun _ => (0 : Int)) channels height width patch_h patch_w
        pad_h pad_w stride_h stride_w init4 j = 0 := by
  constructor
  · rw [col2im_apply (fun i => p1 i + p2 i) channels height width patch_h
      patch_w pad_h pad_w stride_h stride_w init1 j h0 hn,
      col2im_apply p1 channels height width patch_h patch_w pad_h pad_w
        stride_h stride_w init2 j h0 hn,
      col2im_apply p2 channels height width patch_h patch_w pad_h pad_w
        stride_h stride_w init3 j h0 hn]
    exact List.sum_map_add
  · rw [col2im_apply (fun _ => (0 : Int)) channels height width patch_h
      patch_w pad_h pad_w stride_h stride_w init4 j h0 hn]
    exact sum_map_zero _

/-- C10: when the derived `height_col` or `width_col` is nonpositive,
Unfold leaves its output buffer untouched while Fold still zeroes all
`channels*height*width` image elements and returns an all-zero image. -/
theorem C10_degenerate_geometry
    (channels height width kernel_h kernel_w pad_h pad_w stride_h stride_w :
      Int)
    (hdeg : heightCol height kernel_h pad_h stride_h ≤ 0
      ∨ widthCol width kernel_w pad_w stride_w ≤ 0) :
    (∀ (data_im data_col : Int → Int) (j : Int),
      im2col_cpu data_im channels height width kernel_h kernel_w pad_h pad_w
        stride_h stride_w data_col j = data_col j)
    ∧ (∀ (data_col data_im : Int → Int) (j : Int), 0 ≤ j →
      j < channels * height * width →
      col2im_cpu data_col channels height width kernel_h kernel_w pad_h pad_w
        stride_h stride_w data_im j = 0) := by
  constructor
  · intro data_im data_col j
    refine im2col_apply_miss data_im channels height width kernel_h kernel_w
      pad_h pad_w stride_h stride_w data_col j ?_
    simp only [triples_eq_nil hdeg]
    intro t ht
    exact absurd ht (List.not_mem_nil t)
  · intro data_col data_im j hj0 hjn
    have e : channels * height * width = height * width * channels := by ring
    have hjn' : j < height * width * channels := by linarith [e]
    rw [col2im_apply data_col channels height width kernel_h kernel_w pad_h
      pad_w stride_h stride_w data_im j hj0 hjn']
    rw [triples_eq_nil hdeg]
    rfl

/-- C3: with zero padding, stride at least the kernel size in each
direction, and every image row and column covered by a patch, composing
the two transforms returns the image exactly at every element, over the
integers. -/
theorem C3_roundtrip (data_im dcol_init im_init : Int → Int)
    (channels height width kernel_h kernel_w pad_h pad_w stride_h stride_w :
      Int)
    (hph : pad_h = 0) (hpw : pad_w = 0)
    (hkh : 1 ≤ kernel_h) (hkw : 1 ≤ kernel_w)
    (hsk_h : kernel_h ≤ stride_h) (hsk_w : kernel_w ≤ stride_w)
    (hhc : 1 ≤ heightCol height kernel_h pad_h stride_h)
    (hwc : 1 ≤ widthCol width kernel_w pad_w stride_w)
    (hcov_r : ∀ r, 0 ≤ r → r < height → ∃ a, 0 ≤ a
      ∧ a < heightCol height kernel_h pad_h stride_h
      ∧ a * stride_h ≤ r ∧ r < a * stride_h + kernel_h)
    (hcov_c : ∀ s, 0 ≤ s → s < width → ∃ b, 0 ≤ b
      ∧ b < widthCol width kernel_w pad_w stride_w
      ∧ b * stride_w ≤ s ∧ s < b * stride_w + kernel_w)
    (c_im r s : Int) (hc0 : 0 ≤ c_im) (hc1 : c_im < channels)
    (hr0 : 0 ≤ r) (hr1 : r < height) (hs0 : 0 ≤ s) (hs1 : s < width) :
    col2im_cpu
        (im2col_cpu data_im channels height width kernel_h kernel_w pad_h
          pad_w stride_h stride_w dcol_init)
        channels height width kernel_h kernel_w pad_h pad_w stride_h stride_w
        im_init (imIndex height width c_im r s)
      = data_im (imIndex height width c_im r s) := by
  subst hph
  subst hpw
  obtain ⟨a, ha0, ha1, ha2, ha3⟩ := hcov_r r hr0 hr1
  obtain ⟨b, hb0, hb1, hb2, hb3⟩ := hcov_c s hs0 hs1
  have hdec := decodeT_encode kernel_h kernel_w 0 0 stride_h stride_w hkh hkw
    c_im (r - a * stride_h) (s - b * stride_w) a b hc0 (by omega) (by omega)
    (by omega) (by omega)
  have hdec' : decodeT kernel_h kernel_w 0 0 stride_h stride_w
      (c_im * kernel_h * kernel_w + (r - a * stride_h) * kernel_w
        + (s - b * stride_w), a, b) = (c_im, r, s) := by
    rw [hdec]
    exact Prod.ext rfl (Prod.ext (by ring) (by ring))
  have hc0nn : 0 ≤ c_im * kernel_h * kernel_w + (r - a * stride_h) * kernel_w
      + (s - b * stride_w) := by
    have e1 : 0 ≤ c_im * kernel_h * kernel_w :=
      mul_nonneg (mul_nonneg hc0 (by omega)) (by omega)
    have e2 : 0 ≤ (r - a * stride_h) * kernel_w :=
      mul_nonneg (by omega) (by omega)
    omega
  have hc0lt : c_im * kernel_h * kernel_w + (r - a * stride_h) * kernel_w
      + (s - b * stride_w) < channelsCol channels kernel_h kernel_w := by
    have e1 : c_im * kernel_h * kernel_w
        ≤ (channels - 1) * kernel_h * kernel_w :=
      mul_le_mul_of_nonneg_right
        (mul_le_mul_of_nonneg_right (by omega) (by omega)) (by omega)
    have e2 : (r - a * stride_h) * kernel_w ≤ (kernel_h - 1) * kernel_w :=
      mul_le_mul_of_nonneg_right (by omega) (by omega)
    have e3 : (channels - 1) * kernel_h * kernel_w
        = channels * kernel_h * kernel_w - kernel_h * kernel_w := by ring
    have e4 : (kernel_h - 1) * kernel_w = kernel_h * kernel_w - kernel_w := by
      ring
    simp only [channelsCol]
    linarith [e1, e2, e3, e4]
  have hmem : ((c_im * kernel_h * kernel_w + (r - a * stride_h) * kernel_w
      + (s - b * stride_w), a, b) : Int × Int × Int)
      ∈ triples (channelsCol channels kernel_h kernel_w)
        (heightCol height kernel_h 0 stride_h)
        (widthCol width kernel_w 0 stride_w) :=
    mem_triples.mpr ⟨⟨hc0nn, hc0lt⟩, ⟨ha0, ha1⟩, ⟨hb0, hb1⟩⟩
  rw [col2im_at_loc
    (im2col_cpu data_im channels height width kernel_h kernel_w 0 0 stride_h
      stride_w dcol_init)
    channels height width kernel_h kernel_w 0 0 stride_h stride_w im_init
    c_im r s hc0 hc1 hr0 hr1 hs0 hs1]
  have huniq : ∀ i ∈ triples (channelsCol channels kernel_h kernel_w)
      (heightCol height kernel_h 0 stride_h)
      (widthCol width kernel_w 0 stride_w),
      (fun t => decide (decodeT kernel_h kernel_w 0 0 stride_h stride_w t
        = (c_im, r, s))) i = true →
      i = (c_im * kernel_h * kernel_w + (r - a * stride_h) * kernel_w
        + (s - b * stride_w), a, b) := by
    intro i hi hpi
    have hdi : decodeT kernel_h kernel_w 0 0 stride_h stride_w i
        = (c_im, r, s) := by simpa using hpi
    obtain ⟨hic, hih, hiw⟩ := mem_triples.mp hi
    have hob := decodeT_offset_bounds kernel_h kernel_w 0 0 stride_h stride_w
      hkh hkw i hic.1
    rw [hdi] at hob
    simp only [sub_zero] at hob
    obtain ⟨hob1, hob2, hob3, hob4⟩ := hob
    have hia : i.2.1 = a := by
      rcases lt_trichotomy i.2.1 a with hlt | heqa | hgt
      · exfalso
        have h1 : (i.2.1 + 1) * stride_h ≤ a * stride_h :=
          mul_le_mul_of_nonneg_right (by omega) (by omega)
        have e : (i.2.1 + 1) * stride_h = i.2.1 * stride_h + stride_h := by
          ring
        linarith [h1, e, hob2, ha2, hsk_h]
      · exact heqa
      · exfalso
        have h1 : (a + 1) * stride_h ≤ i.2.1 * stride_h :=
          mul_le_mul_of_nonneg_right (by omega) (by omega)
        have e : (a + 1) * stride_h = a * stride_h + stride_h := by ring
        linarith [h1, e, hob1, ha3, hsk_h]
    have hib : i.2.2 = b := by
      rcases lt_trichotomy i.2.2 b with hlt | heqb | hgt
      · exfalso
        have h1 : (i.2.2 + 1) * stride_w ≤ b * stride_w :=
          mul_le_mul_of_nonneg_right (by omega) (by omega)
        have e : (i.2.2 + 1) * stride_w = i.2.2 * stride_w + stride_w := by
          ring
        linarith [h1, e, hob4, hb2, hsk_w]
      · exact heqb
      · exfalso
        have h1 : (b + 1) * stride_w ≤ i.2.2 * stride_w :=
          mul_le_mul_of_nonneg_right (by omega) (by omega)
        have e : (b + 1) * stride_w = b * stride_w + stride_w := by ring
        linarith [h1, e, hob3, hb3, hsk_w]
    have henc := encode_decodeT kernel_h kernel_w 0 0 stride_h stride_w hkh
      hkw i hic.1
    rw [hdi, hia, hib] at henc
    refine Prod.ext ?_ (Prod.ext hia hib)
    show i.1 = c_im * kernel_h * kernel_w + (r - a * stride_h) * kernel_w
      + (s - b * stride_w)
    rw [henc]
    ring
  have hfilt := filter_eq_singleton
    (fun t => decide (decodeT kernel_h kernel_w 0 0 stride_h stride_w t
      = (c_im, r, s)))
    (triples (channelsCol channels kernel_h kernel_w)
      (heightCol height kernel_h 0 stride_h)
      (widthCol width kernel_w 0 stride_w))
    (c_im * kernel_h * kernel_w + (r - a * stride_h) * kernel_w
      + (s - b * stride_w), a, b)
    (nodup_triples _ _ _) hmem (by simp [hdec']) huniq
  rw [hfilt]
  simp only [List.map_cons, List.map_nil, List.sum_cons, List.sum_nil,
    add_zero]
  rw [im2col_apply_triple data_im channels height width kernel_h kernel_w 0 0
    stride_h stride_w dcol_init _ hmem]
  simp only [unfoldVal, hdec']
  rw [if_pos (show inImage height width ((c_im, r, s) : Int × Int × Int) from
    ⟨hr0, hr1, hs0, hs1⟩)]

/-- C5: the concrete scenario: channels 1, a 4 by 4 image, 3 by 3 kernel,
no padding, stride 1 gives derived sizes 2, 2 and 9; Unfold of the image
1..16 yields 1,2,3,5,6,7,9,10,11 at output position (0,0); Fold of an
all-ones patch matrix yields the coverage counts. -/
theorem C5_concrete_scenario :
    heightCol 4 3 0 1 = 2 ∧ widthCol 4 3 0 1 = 2 ∧ channelsCol 1 3 3 = 9
    ∧ (List.range 9).map (fun c =>
        im2col_cpu (fun i => i + 1) 1 4 4 3 3 0 0 1 1 (fun _ => (0 : Int))
          ((c : Nat) : Int)) = [1, 2, 3, 5, 6, 7, 9, 10, 11]
    ∧ (List.range 16).map (fun i =>
        col2im_cpu (fun _ => (1 : Int)) 1 4 4 3 3 0 0 1 1 (fun _ => 7)
          ((i : Nat) : Int))
      = [1, 2, 2, 1, 2, 4, 4, 2, 2, 4, 4, 2, 1, 2, 2, 1] := by
  decide

/-! ### Concrete witnesses -/

theorem C1_unfold_slot_value_witness :
    im2col_cpu (fun i => i + 1) 1 4 4 3 3 0 0 1 1 (fun _ => (0 : Int)) 14
      = 8 :=
  C1_unfold_slot_value (fun i => i + 1) (fun _ => 0) 1 4 4 3 3 0 0 1 1 0 1 5
    (by decide) (by decide) (by decide) (by decide) (by decide) (by decide)
    (by decide) (by decide) (by decide) (by decide) (by decide) (by decide)
    (by decide) (by decide) (by decide)

theorem C2_fold_sum_of_covering_witness :
    col2im_cpu (fun i => i) 1 4 4 3 3 0 0 1 1 (fun _ => (5 : Int)) 5 = 62 :=
  C2_fold_sum_of_covering (fun i => i) 1 4 4 3 3 0 0 1 1 (fun _ => 5)
    (by decide) (by decide) 0 1 1 (by decide) (by decide) (by decide)
    (by decide) (by decide) (by decide)

theorem C3_roundtrip_witness :
    col2im_cpu
        (im2col_cpu (fun i => i + 1) 1 4 4 2 2 0 0 2 2 (fun _ => (0 : Int)))
        1 4 4 2 2 0 0 2 2 (fun _ => 9) 7 = 8 :=
  C3_roundtrip (fun i => i + 1) (fun _ => 0) (fun _ => 9) 1 4 4 2 2 0 0 2 2
    rfl rfl (by decide) (by decide) (by decide) (by decide) (by decide)
    (by decide)
    (by
      intro r h0 h1
      interval_cases r
      · exact ⟨0, by decide⟩
      · exact ⟨0, by decide⟩
      · exact ⟨1, by decide⟩
      · exact ⟨1, by decide⟩)
    (by
      intro s h0 h1
      interval_cases s
      · exact ⟨0, by decide⟩
      · exact ⟨0, by decide⟩
      · exact ⟨1, by decide⟩
      · exact ⟨1, by decide⟩)
    0 1 3 (by decide) (by decide) (by decide) (by decide) (by decide)
    (by decide)

theorem C4_fold_ones_gives_coverage_count_witness :
    col2im_cpu (fun _ => (1 : Int)) 1 4 4 3 3 0 0 1 1 (fun _ => 7) 5 = 4 :=
  C4_fold_ones_gives_coverage_count 1 4 4 3 3 0 0 1 1 (fun _ => 7)
    (Or.inl (by decide)) (by decide) (by decide) 0 1 1 (by decide) (by decide)
    (by decide) (by decide) (by decide) (by decide)

theorem C6_padding_slots_zero_witness :
    im2col_cpu (fun _ => (1 : Int)) 1 3 3 2 2 1 1 1 1 (fun _ => 7) 0 = 0 :=
  C6_padding_slots_zero (fun _ => 7) 1 3 3 2 2 1 1 1 1 0 0 0
    (Or.inl (by decide)) (by decide) (by decide) (by decide) (by decide)
    (by decide) (by decide) (by decide) (by decide)

theorem C7_unfold_every_slot_once_witness :
    ((triples (channelsCol 1 3 3) (heightCol 4 3 0 1)
        (widthCol 4 3 0 1)).filter
      (fun t => decide (colKey (channelsCol 1 3 3) (widthCol 4 3 0 1) t
        = 14))).length = 1
    ∧ im2col_cpu (fun i => i + 1) 1 4 4 3 3 0 0 1 1 (fun _ => (0 : Int)) 14
      = im2col_cpu (fun i => i + 1) 1 4 4 3 3 0 0 1 1 (fun _ => 99) 14 := by
  have h := C7_unfold_every_slot_once (fun i => i + 1) 1 4 4 3 3 0 0 1 1 14
    (by decide) (by decide) (by decide) (by decide) (by decide) (by decide)
    (by decide)
  exact ⟨h.1, h.2 (fun _ => 0) (fun _ => 99)⟩

theorem C8_uncovered_location_zero_witness :
    col2im_cpu (fun i => i + 3) 1 3 3 1 1 0 0 2 2 (fun _ => (7 : Int)) 4
      = 0 :=
  C8_uncovered_location_zero (fun i => i + 3) 1 3 3 1 1 0 0 2 2 (fun _ => 7)
    (by decide) (by decide) 0 1 1 (by decide) (by decide) (by decide)
    (by decide) (by decide) (by decide) (by decide)

theorem C9_fold_additive_witness :
    col2im_cpu (fun i => i + (2 * i + 1)) 1 4 4 3 3 0 0 1 1 (fun _ => 7) 5
      = col2im_cpu (fun i => i) 1 4 4 3 3 0 0 1 1 (fun _ => 8) 5
        + col2im_cpu (fun i => 2 * i + 1) 1 4 4 3 3 0 0 1 1 (fun _ => 9) 5
    ∧ col2im_cpu (fun _ => (0 : Int)) 1 4 4 3 3 0 0 1 1 (fun _ => 3) 5 = 0 :=
  C9_fold_additive 1 4 4 3 3 0 0 1 1 (fun i => i) (fun i => 2 * i + 1)
    (fun _ => 7) (fun _ => 8) (fun _ => 9) (fun _ => 3) 5 (by decide)
    (by decide)

theorem C10_degenerate_geometry_witness :
    im2col_cpu (fun i => i) 1 3 3 5 1 0 0 1 1 (fun i => i + 100) 0 = 100
    ∧ col2im_cpu (fun i => i) 1 3 3 5 1 0 0 1 1 (fun _ => 9) 4 = 0 := by
  have h := C10_degenerate_geometry 1 3 3 5 1 0 0 1 1 (Or.inl (by decide))
  exact ⟨h.1 (fun i => i) (fun i => i + 100) 0,
    h.2 (fun i => i) (fun _ => 9) 4 (by decide) (by decide)⟩

end Im2col
